import Mathlib

/-!
Verification development for an Anki review-history JSONL exporter add-on.

The add-on exports the review log (one JSON line per review) with optional
filters (deck hierarchy, time window, tags, minimum interval) and two output
schemas (verbose / compact).  Strings are modelled as `List Char`; SQLite
rows as a `Row` structure; Python `int` as `ℤ`; `time.time()` as an exact
rational number of seconds.
-/

namespace AnkiExport

/-- Whitespace in the sense of Python's `str` regex class `\s` and
`str.strip()` / `str.isspace()` (Unicode whitespace). -/
def isPySpace (c : Char) : Bool :=
  let n := c.toNat
  (9 ≤ n && n ≤ 13) || (28 ≤ n && n ≤ 31) || n == 32 || n == 133 || n == 160 ||
    n == 5760 || (8192 ≤ n && n ≤ 8202) || n == 8232 || n == 8233 ||
    n == 8239 || n == 8287 || n == 12288

/-- ASCII lower-casing of one character, as used by case-insensitive regex
matching on the ASCII letters that appear in the add-on's patterns and by
SQLite's `LIKE` (which is ASCII-case-insensitive). -/
def asciiLower (c : Char) : Char :=
  if 'A' ≤ c && c ≤ 'Z' then Char.ofNat (c.toNat + 32) else c

/-- ASCII lower-casing of a string (Python `str.lower()` restricted to the
ASCII range, which is all the claims exercise). -/
def asciiLowerList (l : List Char) : List Char :=
  l.map asciiLower

/-- Python `str.strip()`: drop leading and trailing whitespace. -/
def pyStrip (l : List Char) : List Char :=
  ((l.dropWhile isPySpace).reverse.dropWhile isPySpace).reverse

/-!
`clean_field_value` (src/__init__.py:383-411).  The five stages, in source
order: remove `[sound:...]` tokens, remove `<img...>` tags, decode HTML
entities, remove remaining `<...>` tags, collapse whitespace and strip.

Each regex substitution `re.sub` with these patterns is implemented as a
left-to-right scanner: at each position it tries to match the pattern; on a
match it drops the matched span and continues after it, otherwise it keeps
one character and moves on.  For these patterns (whose interior classes
exclude the closing delimiter) this is exactly the regex's leftmost-match,
greedy semantics.
-/

/-- Scanner for `re.sub(r"\[sound:[^\]]+\]", "", text, re.IGNORECASE)`
(src/__init__.py:377,397).  `none` state: scanning.  `some (orig, buf)`
state: a case-insensitive `[sound:` prefix was read (its original spelling
is `orig`) and `buf` holds, reversed, the non-`]` characters read since.
An unclosed candidate is emitted literally at end of input, as the regex
then never matches inside it (it contains no further `]`). -/
def stripSoundGo : Option (List Char × List Char) → List Char → List Char
  | some st, [] => st.1 ++ st.2.reverse
  | some st, c :: cs =>
    if c = ']' then
      if st.2 = [] then st.1 ++ ']' :: stripSoundGo none cs
      else stripSoundGo none cs
    else stripSoundGo (some (st.1, c :: st.2)) cs
  | none, '[' :: c1 :: c2 :: c3 :: c4 :: c5 :: c6 :: rest =>
    if asciiLower c1 = 's' ∧ asciiLower c2 = 'o' ∧ asciiLower c3 = 'u' ∧
        asciiLower c4 = 'n' ∧ asciiLower c5 = 'd' ∧ c6 = ':' then
      stripSoundGo (some (['[', c1, c2, c3, c4, c5, c6], [])) rest
    else '[' :: stripSoundGo none (c1 :: c2 :: c3 :: c4 :: c5 :: c6 :: rest)
  | none, [] => []
  | none, c :: cs => c :: stripSoundGo none cs

/-- Stage 1 of `clean_field_value`: `_SOUND_RE.sub("", text)`. -/
def stripSound (l : List Char) : List Char :=
  stripSoundGo none l

/-- Scanner for `re.sub(r"<img[^>]*>", "", text, re.IGNORECASE)`
(src/__init__.py:378,400).  `some (orig, buf)` state: a case-insensitive
`<img` prefix was read (original spelling `orig`), `buf` holds reversed the
non-`>` characters read since; a `>` closes the match (empty interior is
allowed by `*`), end of input emits the candidate literally. -/
def stripImgGo : Option (List Char × List Char) → List Char → List Char
  | some st, [] => st.1 ++ st.2.reverse
  | some st, c :: cs =>
    if c = '>' then stripImgGo none cs
    else stripImgGo (some (st.1, c :: st.2)) cs
  | none, '<' :: c1 :: c2 :: c3 :: rest =>
    if asciiLower c1 = 'i' ∧ asciiLower c2 = 'm' ∧ asciiLower c3 = 'g' then
      stripImgGo (some (['<', c1, c2, c3], [])) rest
    else '<' :: stripImgGo none (c1 :: c2 :: c3 :: rest)
  | none, [] => []
  | none, c :: cs => c :: stripImgGo none cs

/-- Stage 2 of `clean_field_value`: `_IMG_TAG_RE.sub("", text)`. -/
def stripImg (l : List Char) : List Char :=
  stripImgGo none l

/-- Modelled from the spec: stage 3 of `clean_field_value` delegates to
Python's standard-library `html.unescape` ("decode HTML/XML character
entities into literal characters (e.g. non-breaking space becomes a literal
space)"), which is outside this repository.  We model the decoding of the
common named entities; `&nbsp;` decodes to U+00A0, which the final
whitespace collapse turns into an ASCII space. -/
def htmlUnescape : List Char → List Char
  | [] => []
  | '&' :: 'l' :: 't' :: ';' :: rest => '<' :: htmlUnescape rest
  | '&' :: 'g' :: 't' :: ';' :: rest => '>' :: htmlUnescape rest
  | '&' :: 'a' :: 'm' :: 'p' :: ';' :: rest => '&' :: htmlUnescape rest
  | '&' :: 'q' :: 'u' :: 'o' :: 't' :: ';' :: rest => Char.ofNat 34 :: htmlUnescape rest
  | '&' :: 'a' :: 'p' :: 'o' :: 's' :: ';' :: rest => Char.ofNat 39 :: htmlUnescape rest
  | '&' :: 'n' :: 'b' :: 's' :: 'p' :: ';' :: rest => Char.ofNat 160 :: htmlUnescape rest
  | c :: cs => c :: htmlUnescape cs

/-- Scanner for `re.sub(r"<[^>]+>", "", text)` (src/__init__.py:379,406).
`some buf` state: a `<` was read and `buf` holds, reversed, the non-`>`
characters read since.  A `>` right after the `<` is not a match (the
interior must be non-empty), so `<>` is emitted literally. -/
def stripTagsGo : Option (List Char) → List Char → List Char
  | some buf, [] => '<' :: buf.reverse
  | some buf, c :: cs =>
    if c = '>' then
      if buf = [] then '<' :: '>' :: stripTagsGo none cs
      else stripTagsGo none cs
    else stripTagsGo (some (c :: buf)) cs
  | none, [] => []
  | none, c :: cs =>
    if c = '<' then stripTagsGo (some []) cs
    else c :: stripTagsGo none cs

/-- Stage 4 of `clean_field_value`: `_HTML_TAG_RE.sub("", text)`. -/
def stripTags (l : List Char) : List Char :=
  stripTagsGo none l

/-- Stage 5a of `clean_field_value`: `_WS_RE.sub(" ", text)` with
`_WS_RE = re.compile(r"\s+")`: each maximal run of whitespace becomes one
ASCII space. -/
def collapseWs : List Char → List Char
  | [] => []
  | c :: cs =>
    if isPySpace c then
      match collapseWs cs with
      | [] => [' ']
      | d :: ds => if d = ' ' then ' ' :: ds else ' ' :: d :: ds
    else c :: collapseWs cs

/-- The Text Sanitizer `clean_field_value` (src/__init__.py:383-411).
The `if not text` guard returns `""` for empty input. -/
def clean_field_value (s : List Char) : List Char :=
  if s = [] then []
  else pyStrip (collapseWs (stripTags (htmlUnescape (stripImg (stripSound s)))))

/-!
The SQL filter (src/__init__.py:440-465).  The WHERE clause is a conjunction
of: deck membership `c.did IN dids`, optional time filter `r.id >= cutoff`,
optional tag disjunction of `n.tags LIKE '% tag %'`, optional interval
filter `r.ivl >= min_interval`.
-/

/-- Python `int()` applied to a real value: truncation toward zero.  Used
for `int((now_sec - days * 86400) * 1000)`; `time.time()` is modelled as an
exact rational rather than a machine float. -/
def pyTrunc (q : ℚ) : ℤ :=
  if 0 ≤ q then q.floor else q.ceil

/-- The time-filter cutoff `cutoff_ms = int((now_sec - days * 86400) * 1000)`
(src/__init__.py:445-446). -/
def cutoff_ms (now_sec : ℚ) (days : ℤ) : ℤ :=
  pyTrunc ((now_sec - (days : ℚ) * 86400) * 1000)

/-- SQLite `LIKE` matching: `%` matches any sequence, `_` any single
character, letters compare ASCII-case-insensitively.  Structural on the
pattern: `%` tries every suffix of the remaining string. -/
def likeMatch : List Char → List Char → Bool
  | [], s => s.isEmpty
  | '%' :: ps, s => s.tails.any (fun t => likeMatch ps t)
  | _ :: _, [] => false
  | c :: ps, a :: s => (c = '_' || asciiLower c = asciiLower a) && likeMatch ps s

/-- The LIKE pattern `f"% {tag} %"` built for one requested tag
(src/__init__.py:456). -/
def likePattern (tag : List Char) : List Char :=
  '%' :: ' ' :: (tag ++ [' ', '%'])

/-- The tag sub-filter (src/__init__.py:452-458): absent (`None`) or empty
tag lists add no clause (Python truthiness of `tags_filter`); otherwise the
clauses `n.tags LIKE '% tag %'` are OR-ed. -/
def tagsPass : Option (List (List Char)) → List Char → Bool
  | none, _ => true
  | some ts, noteTags =>
    if ts = [] then true else ts.any (fun t => likeMatch (likePattern t) noteTags)

/-- The minimum-interval sub-filter `r.ivl >= ?` (src/__init__.py:461-463). -/
def miPass (min_interval : Option ℤ) (r_ivl : ℤ) : Bool :=
  match min_interval with
  | none => true
  | some m => m ≤ r_ivl

/-- The time sub-filter `r.id >= cutoff_ms` (src/__init__.py:444-448). -/
def timePass (days : Option ℤ) (now_sec : ℚ) (r_id : ℤ) : Bool :=
  match days with
  | none => true
  | some d => cutoff_ms now_sec d ≤ r_id

/-!
Data model: one joined `revlog × cards × notes` row, as selected by the SQL
query (src/__init__.py:470-489), and the deck hierarchy.
-/

/-- One row of the join: `r.id, r.cid, c.nid, c.did, r.ease, r.ivl,
r.lastIvl, r.factor, r.time, r.type, n.flds, n.tags`. -/
structure Row where
  ts_ms : ℤ
  cid : ℤ
  nid : ℤ
  did : ℤ
  ease : ℤ
  ivl : ℤ
  lastIvl : ℤ
  factor : ℤ
  rtime : ℤ
  rtype : ℤ
  flds : List Char
  tags : List Char
deriving DecidableEq

/-- The acyclic deck hierarchy below one deck, as exposed by
`col.decks.children()`: a node id together with its child subtrees.  (Anki
guarantees the hierarchy is acyclic, which the finite tree captures.) -/
inductive DeckTree where
  | node : ℤ → List DeckTree → DeckTree

/-- Root id of a deck subtree. -/
def DeckTree.id : DeckTree → ℤ
  | .node i _ => i

/-- Child subtrees of a deck subtree. -/
def DeckTree.children : DeckTree → List DeckTree
  | .node _ cs => cs

mutual

/-- Ids appended by the recursive fallback `collect` (src/__init__.py:364-369):
for each child, its id followed by its own descendants, children in order. -/
def descendants : DeckTree → List ℤ
  | .node _ cs => descList cs

/-- Descendant ids of a list of sibling subtrees, in sibling order. -/
def descList : List DeckTree → List ℤ
  | [] => []
  | c :: cs => c.id :: (descendants c ++ descList cs)

end

/-- The external collection (Anki's data store), at its interface boundary:
the joined rows `db`, the `(name, id)` pairs of `all_names_and_ids()`, the
newer bulk `deck_and_child_ids` API when available, and the deck subtree
rooted at a given id (what recursive `children()` lookups traverse). -/
structure Collection where
  db : List Row
  namesAndIds : List (List Char × ℤ)
  bulkDeckChildIds : Option (ℤ → List ℤ)
  deckTreeOf : ℤ → DeckTree

/-- The Deck Hierarchy Resolver `_deck_and_child_ids` (src/__init__.py:347-370):
the bulk API when present, otherwise `[deck_id]` followed by the recursive
`collect` descent. -/
def deck_and_child_ids (col : Collection) (deck_id : ℤ) : List ℤ :=
  match col.bulkDeckChildIds with
  | some f => f deck_id
  | none => deck_id :: descendants (col.deckTreeOf deck_id)

/-- Python dict lookup `dict.get(k, default)` for the dict comprehension
`{d.id: d.name for d in col.decks.all_names_and_ids()}`
(src/__init__.py:492): on duplicate ids the last pair wins. -/
def dictGet (pairs : List (List Char × ℤ)) (k : ℤ) : Option (List Char) :=
  (pairs.reverse.find? (fun p => p.2 == k)).map (fun p => p.1)

/-- The full WHERE clause over one joined row (src/__init__.py:440-465). -/
def rowPasses (dids : List ℤ) (days : Option ℤ) (tags_filter : Option (List (List Char)))
    (min_interval : Option ℤ) (now_sec : ℚ) (r : Row) : Bool :=
  dids.contains r.did && timePass days now_sec r.ts_ms &&
    tagsPass tags_filter r.tags && miPass min_interval r.ivl

/-- Ordering of rows by `ORDER BY r.id` (ascending review timestamp). -/
def tsLe (a b : Row) : Prop :=
  a.ts_ms ≤ b.ts_ms

instance : DecidableRel tsLe :=
  fun a b => decidable_of_iff (a.ts_ms ≤ b.ts_ms) Iff.rfl

instance : IsTotal Row tsLe :=
  ⟨fun a b => le_total a.ts_ms b.ts_ms⟩

instance : IsTrans Row tsLe :=
  ⟨fun _ _ _ h h2 => le_trans h h2⟩

/-- The rows the SQL query streams: WHERE-matching rows in ascending `r.id`
order (src/__init__.py:470-489). -/
def matchedRows (col : Collection) (deck_id : ℤ) (days : Option ℤ)
    (tags_filter : Option (List (List Char))) (min_interval : Option ℤ)
    (now_sec : ℚ) : List Row :=
  (col.db.filter
      (rowPasses (deck_and_child_ids col deck_id) days tags_filter min_interval now_sec)).insertionSort
    tsLe

/-!
Record projection (src/__init__.py:526-582) and the export pipeline
(src/__init__.py:419-590).  A JSON value here is an int, a string, or an
array of strings; a JSON object is its ordered key/value list (Python dicts
preserve insertion order, which `json.dumps` serializes in order).
-/

/-- JSON values appearing in one output line. -/
inductive JVal where
  | jint : ℤ → JVal
  | jstr : List Char → JVal
  | jlist : List (List Char) → JVal
deriving DecidableEq

/-- One output line before serialization: ordered key/value pairs. -/
abbrev JsonObj : Type :=
  List (List Char × JVal)

/-- Python `str.split(sep)` for a one-character separator: `"a,b" → [a, b]`,
keeping empty chunks, `"" → [""]`. -/
def splitSep (sep : Char) : List Char → List (List Char)
  | [] => [[]]
  | c :: cs =>
    match splitSep sep cs with
    | [] => [[c]]
    | h :: t => if c = sep then [] :: h :: t else (c :: h) :: t

/-- `raw_fields = flds.split("\x1f") if flds else []` (src/__init__.py:526). -/
def rawFields (flds : List Char) : List (List Char) :=
  if flds = [] then [] else splitSep (Char.ofNat 31) flds

/-- Field selection (src/__init__.py:529-537): with requested indices, keep
the in-range ones in requested order, sanitized (`0 <= idx < len`); with no
request, sanitize all fields in natural order. -/
def selectFields (field_indexes : Option (List ℤ)) (raws : List (List Char)) :
    List (List Char) :=
  match field_indexes with
  | some idxs =>
    idxs.filterMap fun idx =>
      if 0 ≤ idx ∧ idx < (raws.length : ℤ) then
        some (clean_field_value (raws.getD idx.toNat []))
      else none
  | none => raws.map clean_field_value

/-- Decimal digits of `n` (used for zero-padded date fields and JSON ints). -/
def natChars (n : ℕ) : List Char :=
  Nat.toDigits 10 n

/-- Left-pad with `0` to a given width. -/
def padZero (w : ℕ) (l : List Char) : List Char :=
  List.replicate (w - l.length) '0' ++ l

/-- Calendar date `(year, month, day)` of a day count since 1970-01-01
(proleptic Gregorian, the standard civil-from-days computation used by
`time.gmtime`). -/
def civilFromDays (z0 : ℤ) : ℤ × ℤ × ℤ :=
  let z := z0 + 719468
  let era := z.fdiv 146097
  let doe := z - era * 146097
  let yoe := (doe - doe / 1460 + doe / 36524 - doe / 146096) / 365
  let y := yoe + era * 400
  let doy := doe - (365 * yoe + yoe / 4 - yoe / 100)
  let mp := (5 * doy + 2) / 153
  let d := doy - (153 * mp + 2) / 5 + 1
  let m := mp + (if mp < 10 then 3 else -9)
  (y + (if m ≤ 2 then 1 else 0), m, d)

/-- The `ts_iso` string `time.strftime("%Y-%m-%dT%H:%M:%SZ",
time.gmtime(ts_ms / 1000.0))` (src/__init__.py:540-542): the timestamp
truncated to whole seconds, rendered as UTC `YYYY-MM-DDTHH:MM:SSZ`. -/
def tsIsoOfMs (ts_ms : ℤ) : List Char :=
  let secs := ts_ms.fdiv 1000
  let days := secs.fdiv 86400
  let sod := secs - days * 86400
  let ymd := civilFromDays days
  padZero 4 (natChars ymd.1.toNat) ++ '-' :: padZero 2 (natChars ymd.2.1.toNat) ++
    '-' :: padZero 2 (natChars ymd.2.2.toNat) ++
    'T' :: padZero 2 (natChars (sod / 3600).toNat) ++
    ':' :: padZero 2 (natChars ((sod % 3600) / 60).toNat) ++
    ':' :: padZero 2 (natChars (sod % 60).toNat) ++ ['Z']

/-- Record Projector (src/__init__.py:526-582): one joined row to one JSON
object, compact or verbose schema; in verbose mode the three flag groups
each append their optional keys. -/
def projectRow (deck_names : List (List Char × ℤ)) (field_indexes : Option (List ℤ))
    (include_ids include_deck_name include_ts_ms compact_schema : Bool)
    (r : Row) : JsonObj :=
  let fields := selectFields field_indexes (rawFields r.flds)
  let ts_iso := tsIsoOfMs r.ts_ms
  if compact_schema then
    [(String.toList "t", JVal.jstr ts_iso), (String.toList "rt", JVal.jint r.rtype),
     (String.toList "e", JVal.jint r.ease), (String.toList "i", JVal.jint r.ivl),
     (String.toList "li", JVal.jint r.lastIvl), (String.toList "f", JVal.jint r.factor),
     (String.toList "ms", JVal.jint r.rtime), (String.toList "flds", JVal.jlist fields)]
  else
    [(String.toList "ts_iso", JVal.jstr ts_iso), (String.toList "ease", JVal.jint r.ease),
     (String.toList "interval", JVal.jint r.ivl),
     (String.toList "last_interval", JVal.jint r.lastIvl),
     (String.toList "factor", JVal.jint r.factor),
     (String.toList "review_time_ms", JVal.jint r.rtime),
     (String.toList "review_type", JVal.jint r.rtype),
     (String.toList "fields", JVal.jlist fields)] ++
      (if include_ts_ms then [(String.toList "ts_ms", JVal.jint r.ts_ms)] else []) ++
      (if include_ids then
        [(String.toList "card_id", JVal.jint r.cid), (String.toList "note_id", JVal.jint r.nid),
         (String.toList "deck_id", JVal.jint r.did)]
      else []) ++
      (if include_deck_name then
        [(String.toList "deck_name",
          JVal.jstr ((dictGet deck_names r.did).getD (String.toList "<unknown>")))]
      else [])

/-- Summary returned by `export_llm_stats` (src/__init__.py:57-64). -/
structure ExportResult where
  count : ℕ
  first_ts_ms : Option ℤ
  last_ts_ms : Option ℤ
  deck_name : List Char
deriving DecidableEq

/-- One iteration of the write loop's statistics (src/__init__.py:521-524,
583): count increments, `first_ts_ms` is assigned only once, `last_ts_ms`
is overwritten by every row. -/
def loopStep (acc : ℕ × Option ℤ × Option ℤ) (r : Row) : ℕ × Option ℤ × Option ℤ :=
  (acc.1 + 1,
   match acc.2.1 with
   | none => some r.ts_ms
   | some v => some v,
   some r.ts_ms)

/-- The loop's accumulated statistics over the streamed rows. -/
def loopAccum (rows : List Row) : ℕ × Option ℤ × Option ℤ :=
  rows.foldl loopStep (0, none, none)

/-- The Export Pipeline `export_llm_stats` (src/__init__.py:419-590),
returning the `ExportResult` and the list of JSON objects written, one per
line, in streamed order. -/
def export_llm_stats (col : Collection) (deck_id : ℤ) (days : Option ℤ)
    (field_indexes : Option (List ℤ)) (tags_filter : Option (List (List Char)))
    (min_interval : Option ℤ)
    (include_ids include_deck_name include_ts_ms compact_schema : Bool)
    (now_sec : ℚ) : ExportResult × List JsonObj :=
  let rows := matchedRows col deck_id days tags_filter min_interval now_sec
  let root_deck_name := (dictGet col.namesAndIds deck_id).getD (String.toList "<unknown>")
  let acc := loopAccum rows
  (⟨acc.1, acc.2.1, acc.2.2, root_deck_name⟩,
   rows.map (projectRow col.namesAndIds field_indexes include_ids include_deck_name
     include_ts_ms compact_schema))

/-!
Serialization: `json.dumps(obj, ensure_ascii=False)` followed by one `"\n"`
per line (src/__init__.py:582).  `json.dumps` with default separators emits
`", "` between items and `": "` after keys, escapes `"` `\` and control
characters, and leaves non-ASCII characters literal.
-/

/-- Hex digit for `\u00XX` escapes. -/
def hexDigit (n : ℕ) : Char :=
  if n < 10 then Char.ofNat (48 + n) else Char.ofNat (87 + n)

/-- JSON escaping of one character (`ensure_ascii=False`). -/
def jsonEscapeChar (c : Char) : List Char :=
  if c = Char.ofNat 34 then [Char.ofNat 92, Char.ofNat 34]
  else if c = Char.ofNat 92 then [Char.ofNat 92, Char.ofNat 92]
  else if c = Char.ofNat 10 then [Char.ofNat 92, 'n']
  else if c = Char.ofNat 9 then [Char.ofNat 92, 't']
  else if c = Char.ofNat 13 then [Char.ofNat 92, 'r']
  else if c = Char.ofNat 8 then [Char.ofNat 92, 'b']
  else if c = Char.ofNat 12 then [Char.ofNat 92, 'f']
  else if c.toNat < 32 then
    [Char.ofNat 92, 'u', '0', '0', hexDigit (c.toNat / 16), hexDigit (c.toNat % 16)]
  else [c]

/-- A JSON string literal. -/
def jsonString (s : List Char) : List Char :=
  Char.ofNat 34 :: (s.flatMap jsonEscapeChar ++ [Char.ofNat 34])

/-- Decimal rendering of a Python int. -/
def intChars (n : ℤ) : List Char :=
  if n < 0 then '-' :: natChars (-n).toNat else natChars n.toNat

/-- Serialization of one JSON value. -/
def serializeJVal : JVal → List Char
  | .jint n => intChars n
  | .jstr s => jsonString s
  | .jlist ss => '[' :: (List.intercalate (String.toList ", ") (ss.map jsonString) ++ [']'])

/-- Serialization of one JSON object with `json.dumps` default separators. -/
def serializeObj (o : JsonObj) : List Char :=
  Char.ofNat 123 ::
    (List.intercalate (String.toList ", ")
        (o.map fun kv => jsonString kv.1 ++ ':' :: ' ' :: serializeJVal kv.2) ++
      [Char.ofNat 125])

/-- The bytes of the output file: one serialized object plus newline per
row (src/__init__.py:582). -/
def fileContents (objs : List JsonObj) : List Char :=
  objs.flatMap fun o => serializeObj o ++ [Char.ofNat 10]

/-- Opening with mode `"w"` truncates: the file's previous contents are
discarded and the new contents replace them (src/__init__.py:504). -/
def openWriteAll (_prev new : List Char) : List Char :=
  new

/-- Contents of the destination file after one export run over a file that
previously held `prev`. -/
def export_file_contents (col : Collection) (deck_id : ℤ) (days : Option ℤ)
    (field_indexes : Option (List ℤ)) (tags_filter : Option (List (List Char)))
    (min_interval : Option ℤ)
    (include_ids include_deck_name include_ts_ms compact_schema : Bool)
    (now_sec : ℚ) (prev : List Char) : List Char :=
  openWriteAll prev
    (fileContents (export_llm_stats col deck_id days field_indexes tags_filter
        min_interval include_ids include_deck_name include_ts_ms compact_schema
        now_sec).2)

/-!
Dialog parsing of the field-index and tag inputs
(src/__init__.py:268-309).
-/

/-- Numeric value of an ASCII digit string, `none` if empty or non-digit. -/
def digitsVal (l : List Char) : Option ℕ :=
  if l = [] ∨ ¬ l.all (fun c => '0' ≤ c && c ≤ '9') then none
  else some (l.foldl (fun a c => a * 10 + (c.toNat - 48)) 0)

/-- Python `int(part)` on a stripped token, as `Option`: optional sign then
decimal digits; anything else raises `ValueError`, modelled as `none`. -/
def pyIntParse : List Char → Option ℤ
  | '-' :: rest => (digitsVal rest).map fun n => -(n : ℤ)
  | '+' :: rest => (digitsVal rest).map fun n => (n : ℤ)
  | s => (digitsVal s).map fun n => (n : ℤ)

/-- Handling of one comma-separated token of the field-index input
(src/__init__.py:278-288): strip, skip empty, parse, keep only `i >= 0`,
silently skip `ValueError`. -/
def tokenIndex (part : List Char) : Option ℤ :=
  let p := pyStrip part
  if p = [] then none
  else
    match pyIntParse p with
    | some i => if 0 ≤ i then some i else none
    | none => none

/-- `LLMStatsDialog.selected_field_indexes` (src/__init__.py:268-290):
`None` for blank input, else the surviving tokens, `None` again if none
survive (`idxs or None`). -/
def selected_field_indexes (text : List Char) : Option (List ℤ) :=
  let t := pyStrip text
  if t = [] then none
  else
    let idxs := (splitSep ',' t).filterMap tokenIndex
    if idxs = [] then none else some idxs

/-- Replace one character by another everywhere (`str.replace(",", " ")`). -/
def replaceChar (a b : Char) (l : List Char) : List Char :=
  l.map fun c => if c = a then b else c

/-- Whitespace splitting `str.split()` (no argument): maximal non-blank
chunks, empty chunks dropped.  `cur` holds the current chunk reversed. -/
def splitWsGo (cur : List Char) : List Char → List (List Char)
  | [] => if cur = [] then [] else [cur.reverse]
  | c :: cs =>
    if isPySpace c then
      if cur = [] then splitWsGo [] cs else cur.reverse :: splitWsGo [] cs
    else splitWsGo (c :: cur) cs

/-- Python `str.split()` with no separator. -/
def pySplitWs (l : List Char) : List (List Char) :=
  splitWsGo [] l

/-- Handling of one whitespace-separated tag token (src/__init__.py:304-307):
strip (a no-op after splitting), lower-case, keep if non-empty. -/
def tokenTag (part : List Char) : Option (List Char) :=
  let t := asciiLowerList (pyStrip part)
  if t = [] then none else some t

/-- `LLMStatsDialog.selected_tags` (src/__init__.py:292-309): `None` for
blank input, else commas become spaces, whitespace-split, lower-cased
tokens; `None` again if none survive (`tags or None`). -/
def selected_tags (text : List Char) : Option (List (List Char)) :=
  let t := pyStrip text
  if t = [] then none
  else
    let tags := (pySplitWs (replaceChar ',' ' ' t)).filterMap tokenTag
    if tags = [] then none else some tags

/-- Comma-joined rendering of a token list, for stating what the parsers do
to a given sequence of input tokens. -/
def renderComma : List (List Char) → List Char
  | [] => []
  | [p] => p
  | p :: q :: rest => p ++ ',' :: renderComma (q :: rest)

/-!
Predicates used to state the Text Sanitizer's guarantees.
-/

/-- The list contains a complete tag: a `<`, a non-empty run of non-`>`
characters, and a closing `>` (a match of the pattern `<[^>]+>`). -/
def hasTagP (l : List Char) : Prop :=
  ∃ p mid q, l = p ++ '<' :: (mid ++ '>' :: q) ∧ mid ≠ [] ∧ ∀ c ∈ mid, c ≠ '>'

/-- The list begins (not necessarily at its head) the interior and closing
of a tag: a non-empty run of non-`>` characters followed by `>`. -/
def opensTag (l : List Char) : Prop :=
  ∃ mid q, l = mid ++ '>' :: q ∧ mid ≠ [] ∧ ∀ c ∈ mid, c ≠ '>'

/-- No two adjacent characters are both spaces. -/
def noDoubleSpace (l : List Char) : Prop :=
  List.Chain' (fun x y => ¬ (x = ' ' ∧ y = ' ')) l

/-- Anki's `n.tags` column for a note with the given tag tokens: the
space-separated tokens with sentinel spaces on both ends, e.g.
`" tag1 tag2 "` (src/__init__.py:451 comment). -/
def renderTags : List (List Char) → List Char
  | [] => [' ']
  | t :: ts => ' ' :: (t ++ renderTags ts)

/-!
Facts about `hasTagP` and `opensTag`.
-/

theorem hasTagP_nil : ¬ hasTagP [] := by
  rintro ⟨p, mid, q, h, -, -⟩
  cases p <;> simp at h

theorem gt_mem_of_hasTagP {l : List Char} (h : hasTagP l) : '>' ∈ l := by
  obtain ⟨p, mid, q, rfl, -, -⟩ := h
  simp

theorem not_hasTagP_of_gt_not_mem {l : List Char} (h : '>' ∉ l) : ¬ hasTagP l :=
  fun hl => h (gt_mem_of_hasTagP hl)

theorem hasTagP_cons_iff {c : Char} {l : List Char} :
    hasTagP (c :: l) ↔ (c = '<' ∧ opensTag l) ∨ hasTagP l := by
  constructor
  · rintro ⟨p, mid, q, h, hne, hmid⟩
    match p, h with
    | [], h =>
      simp only [List.nil_append, List.cons.injEq] at h
      exact Or.inl ⟨h.1, mid, q, h.2, hne, hmid⟩
    | p0 :: p', h =>
      simp only [List.cons_append, List.cons.injEq] at h
      exact Or.inr ⟨p', mid, q, h.2, hne, hmid⟩
  · rintro (⟨rfl, mid, q, rfl, hne, hmid⟩ | ⟨p, mid, q, rfl, hne, hmid⟩)
    · exact ⟨[], mid, q, rfl, hne, hmid⟩
    · exact ⟨c :: p, mid, q, rfl, hne, hmid⟩

theorem opensTag_iff {l : List Char} :
    opensTag l ↔ '>' ∈ l ∧ l.head? ≠ some '>' := by
  constructor
  · rintro ⟨mid, q, rfl, hne, hmid⟩
    refine ⟨by simp, ?_⟩
    match mid, hne with
    | m :: mid', _ =>
      simpa using hmid m (by simp)
  · rintro ⟨hmem, hhead⟩
    induction l with
    | nil => simp at hmem
    | cons a l ih =>
      have ha : a ≠ '>' := by
        intro h
        exact hhead (by simp [h])
      have hmem' : '>' ∈ l := by
        rcases List.mem_cons.mp hmem with h | h
        · exact absurd h.symm ha
        · exact h
      match l, hmem' with
      | b :: l', hmem' =>
        by_cases hb : b = '>'
        · exact ⟨[a], l', by simp [hb], by simp, by simpa using ha⟩
        · obtain ⟨mid, q, heq, -, hmid⟩ := ih hmem' (by simp [hb])
          refine ⟨a :: mid, q, by simp [heq], by simp, ?_⟩
          intro c hc
          rcases List.mem_cons.mp hc with h | h
          · exact h ▸ ha
          · exact hmid c h

theorem hasTagP_append_left {l : List Char} (x : List Char) (h : hasTagP l) :
    hasTagP (x ++ l) := by
  obtain ⟨p, mid, q, rfl, hne, hmid⟩ := h
  exact ⟨x ++ p, mid, q, by simp, hne, hmid⟩

theorem hasTagP_append_right {l : List Char} (y : List Char) (h : hasTagP l) :
    hasTagP (l ++ y) := by
  obtain ⟨p, mid, q, rfl, hne, hmid⟩ := h
  exact ⟨p, mid, q ++ y, by simp, hne, hmid⟩

theorem hasTagP_cons {c : Char} {l : List Char} (h : hasTagP l) : hasTagP (c :: l) :=
  hasTagP_append_left [c] h

theorem hasTagP_isInfix_mono {l m : List Char} (hinf : l <:+: m) (h : hasTagP l) :
    hasTagP m := by
  obtain ⟨x, y, rfl⟩ := hinf
  rw [List.append_assoc]
  exact hasTagP_append_left x (hasTagP_append_right y h)

/-!
The tag-stripping stage leaves no complete tag behind.
-/

theorem stripTagsGo_noTag :
    ∀ (l : List Char) (st : Option (List Char)),
      (∀ b, st = some b → '>' ∉ b) → ¬ hasTagP (stripTagsGo st l) := by
  intro l
  induction l with
  | nil =>
    rintro (_ | b) hst
    · simpa [stripTagsGo] using hasTagP_nil
    · have hb : '>' ∉ b := hst b rfl
      apply not_hasTagP_of_gt_not_mem
      simp only [stripTagsGo, List.mem_cons, List.mem_reverse]
      rintro (h | h)
      · exact absurd h.symm (by decide)
      · exact hb h
  | cons c cs ih =>
    rintro (_ | b) hst
    · show ¬ hasTagP (stripTagsGo none (c :: cs))
      by_cases hc : c = '<'
      · simpa [stripTagsGo, hc] using ih (some []) (by simp)
      · rw [show stripTagsGo none (c :: cs) = c :: stripTagsGo none cs by
          simp [stripTagsGo, hc]]
        intro h
        rcases hasTagP_cons_iff.mp h with ⟨h1, -⟩ | h2
        · exact hc h1
        · exact ih none (by simp) h2
    · show ¬ hasTagP (stripTagsGo (some b) (c :: cs))
      have hb : '>' ∉ b := hst b rfl
      by_cases hc : c = '>'
      · by_cases hbe : b = []
        · rw [show stripTagsGo (some b) (c :: cs) = '<' :: '>' :: stripTagsGo none cs by
            simp [stripTagsGo, hc, hbe]]
          intro h
          rcases hasTagP_cons_iff.mp h with ⟨-, hop⟩ | h2
          · rcases opensTag_iff.mp hop with ⟨-, hh⟩
            exact hh rfl
          · rcases hasTagP_cons_iff.mp h2 with ⟨h3, -⟩ | h4
            · exact absurd h3 (by decide)
            · exact ih none (by simp) h4
        · simpa [stripTagsGo, hc, hbe] using ih none (by simp)
      · rw [show stripTagsGo (some b) (c :: cs) = stripTagsGo (some (c :: b)) cs by
          simp [stripTagsGo, hc]]
        refine ih (some (c :: b)) ?_
        rintro b' ⟨rfl⟩
        simp only [List.mem_cons]
        rintro (h | h)
        · exact hc h.symm
        · exact hb h

theorem stripTags_noTag (l : List Char) : ¬ hasTagP (stripTags l) :=
  stripTagsGo_noTag l none (by simp)

/-!
The whitespace-collapse stage: membership control, tag-freeness
preservation, and the shape of its output.
-/

theorem collapseWs_cons_of_not_space {a : Char} (l : List Char) (h : ¬ isPySpace a) :
    collapseWs (a :: l) = a :: collapseWs l := by
  simp [collapseWs, h]

theorem collapseWs_cons_space_nil {a : Char} {l : List Char} (ha : isPySpace a)
    (h0 : collapseWs l = []) : collapseWs (a :: l) = [' '] := by
  simp [collapseWs, ha, h0]

theorem collapseWs_cons_space_space {a : Char} {l ds : List Char} (ha : isPySpace a)
    (h0 : collapseWs l = ' ' :: ds) : collapseWs (a :: l) = ' ' :: ds := by
  simp [collapseWs, ha, h0]

theorem collapseWs_cons_space_other {a d : Char} {l ds : List Char} (ha : isPySpace a)
    (h0 : collapseWs l = d :: ds) (hd : d ≠ ' ') :
    collapseWs (a :: l) = ' ' :: d :: ds := by
  simp [collapseWs, ha, h0, hd]

theorem mem_collapseWs {l : List Char} {c : Char} (h : c ∈ collapseWs l) :
    c = ' ' ∨ c ∈ l := by
  induction l with
  | nil => simp [collapseWs] at h
  | cons a l ih =>
    by_cases ha : isPySpace a
    · cases hm : collapseWs l with
      | nil =>
        rw [collapseWs_cons_space_nil ha hm] at h
        simp only [List.mem_singleton] at h
        exact Or.inl h
      | cons d ds =>
        by_cases hd : d = ' '
        · rw [hd] at hm
          rw [collapseWs_cons_space_space ha hm] at h
          rcases ih (hm ▸ h) with h' | h'
          · exact Or.inl h'
          · exact Or.inr (List.mem_cons_of_mem a h')
        · rw [collapseWs_cons_space_other ha hm hd] at h
          rcases List.mem_cons.mp h with h1 | h1
          · exact Or.inl h1
          · rcases ih (hm ▸ h1) with h' | h'
            · exact Or.inl h'
            · exact Or.inr (List.mem_cons_of_mem a h')
    · rw [collapseWs_cons_of_not_space l ha] at h
      rcases List.mem_cons.mp h with h | h
      · exact Or.inr (h ▸ List.mem_cons_self a l)
      · rcases ih h with h' | h'
        · exact Or.inl h'
        · exact Or.inr (List.mem_cons_of_mem a h')

theorem collapseWs_only_plain_space {l : List Char} {c : Char} (h : c ∈ collapseWs l)
    (hws : isPySpace c) : c = ' ' := by
  induction l with
  | nil => simp [collapseWs] at h
  | cons a l ih =>
    by_cases ha : isPySpace a
    · cases hm : collapseWs l with
      | nil =>
        rw [collapseWs_cons_space_nil ha hm] at h
        simpa using h
      | cons d ds =>
        by_cases hd : d = ' '
        · rw [hd] at hm
          rw [collapseWs_cons_space_space ha hm] at h
          exact ih (hm ▸ h)
        · rw [collapseWs_cons_space_other ha hm hd] at h
          rcases List.mem_cons.mp h with h1 | h1
          · exact h1
          · exact ih (hm ▸ h1)
    · rw [collapseWs_cons_of_not_space l ha] at h
      rcases List.mem_cons.mp h with h | h
      · exact absurd (h ▸ hws) ha
      · exact ih h

theorem noDoubleSpace_collapseWs (l : List Char) : noDoubleSpace (collapseWs l) := by
  induction l with
  | nil => simp [collapseWs, noDoubleSpace]
  | cons a l ih =>
    by_cases ha : isPySpace a
    · cases hm : collapseWs l with
      | nil =>
        rw [collapseWs_cons_space_nil ha hm]
        simp [noDoubleSpace]
      | cons d ds =>
        by_cases hd : d = ' '
        · rw [hd] at hm
          rw [collapseWs_cons_space_space ha hm]
          exact hm ▸ ih
        · rw [collapseWs_cons_space_other ha hm hd]
          refine List.chain'_cons.mpr ⟨?_, hm ▸ ih⟩
          rintro ⟨-, h2⟩
          exact hd h2
    · rw [collapseWs_cons_of_not_space l ha]
      have ha' : a ≠ ' ' := by
        intro h
        exact ha (by rw [h]; decide)
      cases hm : collapseWs l with
      | nil => simp [noDoubleSpace]
      | cons d ds =>
        refine List.chain'_cons.mpr ⟨?_, hm ▸ ih⟩
        rintro ⟨h1, -⟩
        exact ha' h1

theorem hasTagP_collapseWs {l : List Char} (h : hasTagP (collapseWs l)) : hasTagP l := by
  induction l with
  | nil => exact absurd (by simpa [collapseWs] using h) hasTagP_nil
  | cons a l ih =>
    by_cases ha : isPySpace a
    · have key : ∀ X, collapseWs (a :: l) = ' ' :: X →
          (hasTagP (' ' :: X) → hasTagP (a :: l)) := by
        intro X hX htag
        rcases hasTagP_cons_iff.mp htag with ⟨h1, -⟩ | h2
        · exact absurd h1 (by decide)
        · cases hm : collapseWs l with
          | nil =>
            have hX0 : X = [] := by
              have h' := hX.symm.trans (collapseWs_cons_space_nil ha hm)
              simpa using h'
            rw [hX0] at h2
            exact absurd h2 hasTagP_nil
          | cons d ds =>
            by_cases hd : d = ' '
            · rw [hd] at hm
              have hX' : X = ds := by
                have h' := hX.symm.trans (collapseWs_cons_space_space ha hm)
                simpa using h'
              have : hasTagP (collapseWs l) := by
                rw [hm]
                exact hasTagP_cons (hX' ▸ h2)
              exact hasTagP_cons (ih this)
            · have hX' : X = d :: ds := by
                have h' := hX.symm.trans (collapseWs_cons_space_other ha hm hd)
                simpa using h'
              have : hasTagP (collapseWs l) := by
                rw [hm, ← hX']
                exact h2
              exact hasTagP_cons (ih this)
      cases hm : collapseWs l with
      | nil =>
        exact key [] (collapseWs_cons_space_nil ha hm) ((collapseWs_cons_space_nil ha hm) ▸ h)
      | cons d ds =>
        by_cases hd : d = ' '
        · rw [hd] at hm
          exact key ds (collapseWs_cons_space_space ha hm)
            ((collapseWs_cons_space_space ha hm) ▸ h)
        · exact key (d :: ds) (collapseWs_cons_space_other ha hm hd)
            ((collapseWs_cons_space_other ha hm hd) ▸ h)
    · rw [collapseWs_cons_of_not_space l ha] at h
      rcases hasTagP_cons_iff.mp h with ⟨h1, hop⟩ | h2
      · rcases opensTag_iff.mp hop with ⟨hgt, hhead⟩
        have hgt' : '>' ∈ l := by
          rcases mem_collapseWs hgt with h' | h'
          · exact absurd h' (by decide)
          · exact h'
        have hhead' : l.head? ≠ some '>' := by
          intro hcon
          cases l with
          | nil => simp at hcon
          | cons b l' =>
            simp only [List.head?_cons, Option.some.injEq] at hcon
            have hb : ¬ isPySpace b := by
              rw [hcon]
              decide
            rw [collapseWs_cons_of_not_space l' hb] at hhead
            exact hhead (by simp [hcon])
        exact hasTagP_cons_iff.mpr (Or.inl ⟨h1, opensTag_iff.mpr ⟨hgt', hhead'⟩⟩)
      · exact hasTagP_cons (ih h2)

/-!
The strip stage: its output is a contiguous piece of its input, with
non-whitespace first and last characters.
-/

theorem pyStrip_isInfix (l : List Char) : pyStrip l <:+: l := by
  have hm : l.dropWhile isPySpace <:+ l := List.dropWhile_suffix isPySpace
  have hY : (l.dropWhile isPySpace).reverse.dropWhile isPySpace <:+
      (l.dropWhile isPySpace).reverse := List.dropWhile_suffix isPySpace
  obtain ⟨t, ht⟩ := hY
  have hpre : pyStrip l <+: l.dropWhile isPySpace := by
    refine ⟨t.reverse, ?_⟩
    have := congrArg List.reverse ht
    simpa [pyStrip] using this
  exact hpre.isInfix.trans hm.isInfix

theorem pyStrip_head?_not_space {l : List Char} {c : Char}
    (h : (pyStrip l).head? = some c) : isPySpace c = false := by
  rw [pyStrip, List.head?_reverse] at h
  have hY : (l.dropWhile isPySpace).reverse.dropWhile isPySpace <:+
      (l.dropWhile isPySpace).reverse := List.dropWhile_suffix isPySpace
  obtain ⟨t, ht⟩ := hY
  have hne : (l.dropWhile isPySpace).reverse.dropWhile isPySpace ≠ [] := by
    intro h0
    rw [h0] at h
    simp at h
  have hlast : ((l.dropWhile isPySpace).reverse.dropWhile isPySpace).getLast? =
      (l.dropWhile isPySpace).reverse.getLast? := by
    conv_rhs => rw [← ht]
    rw [List.getLast?_append]
    cases hYl : ((l.dropWhile isPySpace).reverse.dropWhile isPySpace).getLast? with
    | none => exact absurd (List.getLast?_eq_none_iff.mp hYl) hne
    | some y => simp
  rw [hlast, List.getLast?_reverse] at h
  have hdw := List.head?_dropWhile_not isPySpace l
  rw [h] at hdw
  exact hdw

theorem pyStrip_getLast?_not_space {l : List Char} {c : Char}
    (h : (pyStrip l).getLast? = some c) : isPySpace c = false := by
  rw [pyStrip, List.getLast?_reverse] at h
  have hdw := List.head?_dropWhile_not isPySpace (l.dropWhile isPySpace).reverse
  rw [h] at hdw
  exact hdw

/-- C1: the Text Sanitizer's whitespace guarantee holds for every input —
every whitespace character surviving in the output is an ASCII space, no
two adjacent output characters are spaces, and the output neither starts
nor ends with a space — and the output never contains a complete tag
(a match of `<[^>]+>`).  (The claim's stronger guarantee, that no `<`, `>`
or `[sound:...]` survives at all, is refuted by the counterexample.) -/
theorem clean_field_value_spec (s : List Char) :
    (∀ c ∈ clean_field_value s, isPySpace c = true → c = ' ') ∧
    noDoubleSpace (clean_field_value s) ∧
    (clean_field_value s).head? ≠ some ' ' ∧
    (clean_field_value s).getLast? ≠ some ' ' ∧
    ¬ hasTagP (clean_field_value s) := by
  by_cases hs : s = []
  · rw [clean_field_value, if_pos hs]
    exact ⟨by simp, by simp [noDoubleSpace], by simp, by simp, hasTagP_nil⟩
  · rw [clean_field_value, if_neg hs]
    have hinf := pyStrip_isInfix (collapseWs (stripTags (htmlUnescape (stripImg (stripSound s)))))
    refine ⟨?_, ?_, ?_, ?_, ?_⟩
    · intro c hc hws
      exact collapseWs_only_plain_space (hinf.sublist.subset hc) hws
    · exact List.Chain'.infix (noDoubleSpace_collapseWs _) hinf
    · intro h
      have := pyStrip_head?_not_space h
      simp [isPySpace] at this
    · intro h
      have := pyStrip_getLast?_not_space h
      simp [isPySpace] at this
    · intro h
      exact stripTags_noTag _ (hasTagP_collapseWs (hasTagP_isInfix_mono hinf h))

/-- C1 counterexample: the sanitizer's output can contain `<` (an unmatched
bracket survives), `>` (a decoded `&gt;` survives), and a literal
`[sound:...]` token (reassembled when the tag inside it is stripped), so
the claim's universal no-`<`/`>`/`[sound:...]` guarantee is false. -/
theorem clean_field_value_claim_counterexample :
    '<' ∈ clean_field_value (String.toList "a < b") ∧
    '>' ∈ clean_field_value (String.toList "&gt;") ∧
    clean_field_value (String.toList "[sou<b>nd:x.mp3]") =
      String.toList "[sound:x.mp3]" := by
  refine ⟨?_, ?_, ?_⟩ <;> decide

/-- C4: in compact mode the projected object's keys are exactly the eight
short keys, independently of the three verbose inclusion flags, and none of
`ts_ms`, `card_id`, `note_id`, `deck_id`, `deck_name` ever appears. -/
theorem compact_schema_keys (deck_names : List (List Char × ℤ))
    (field_indexes : Option (List ℤ))
    (include_ids include_deck_name include_ts_ms : Bool) (r : Row) :
    (projectRow deck_names field_indexes include_ids include_deck_name
        include_ts_ms true r).map Prod.fst =
      [String.toList "t", String.toList "rt", String.toList "e", String.toList "i",
       String.toList "li", String.toList "f", String.toList "ms", String.toList "flds"] ∧
    String.toList "ts_ms" ∉ (projectRow deck_names field_indexes include_ids
        include_deck_name include_ts_ms true r).map Prod.fst ∧
    String.toList "card_id" ∉ (projectRow deck_names field_indexes include_ids
        include_deck_name include_ts_ms true r).map Prod.fst ∧
    String.toList "note_id" ∉ (projectRow deck_names field_indexes include_ids
        include_deck_name include_ts_ms true r).map Prod.fst ∧
    String.toList "deck_id" ∉ (projectRow deck_names field_indexes include_ids
        include_deck_name include_ts_ms true r).map Prod.fst ∧
    String.toList "deck_name" ∉ (projectRow deck_names field_indexes include_ids
        include_deck_name include_ts_ms true r).map Prod.fst := by
  have hk : (projectRow deck_names field_indexes include_ids include_deck_name
      include_ts_ms true r).map Prod.fst =
      [String.toList "t", String.toList "rt", String.toList "e", String.toList "i",
       String.toList "li", String.toList "f", String.toList "ms", String.toList "flds"] := by
    simp [projectRow]
  refine ⟨hk, ?_, ?_, ?_, ?_, ?_⟩ <;> rw [hk] <;> decide

/-- C6: with a requested index list, the projected `fields` array is the
sanitized values at the in-range indices, in requested order; out-of-range
indices are dropped without effect (selecting with them equals selecting
with only the in-range ones), and this array is what the verbose object
carries under the `fields` key. -/
theorem field_selection_spec (idxs : List ℤ) (deck_names : List (List Char × ℤ))
    (include_ids include_deck_name include_ts_ms : Bool) (r : Row) :
    selectFields (some idxs) (rawFields r.flds) =
      (idxs.filter fun i => decide (0 ≤ i ∧ i < ((rawFields r.flds).length : ℤ))).map
        (fun i => clean_field_value ((rawFields r.flds).getD i.toNat [])) ∧
    selectFields (some idxs) (rawFields r.flds) =
      selectFields
        (some (idxs.filter fun i => decide (0 ≤ i ∧ i < ((rawFields r.flds).length : ℤ))))
        (rawFields r.flds) ∧
    (String.toList "fields", JVal.jlist (selectFields (some idxs) (rawFields r.flds))) ∈
      projectRow deck_names (some idxs) include_ids include_deck_name include_ts_ms
        false r := by
  have key : ∀ (l : List ℤ) (raws : List (List Char)),
      selectFields (some l) raws =
        (l.filter fun i => decide (0 ≤ i ∧ i < (raws.length : ℤ))).map
          (fun i => clean_field_value (raws.getD i.toNat [])) := by
    intro l raws
    induction l with
    | nil => simp [selectFields]
    | cons i l ih =>
      by_cases hi : 0 ≤ i ∧ i < (raws.length : ℤ)
      · simpa [selectFields, List.filterMap_cons, hi] using ih
      · simpa [selectFields, List.filterMap_cons, hi] using ih
  refine ⟨key idxs _, ?_, ?_⟩
  · rw [key idxs _, key _ _, List.filter_filter]
    simp only [Bool.and_self]
  · simp [projectRow]

/-- C8: an export run writes the same bytes whatever the destination file
held before (mode `"w"` truncates), so running twice with identical options
over an unchanged data source leaves byte-identical file contents, and a
second run over the first run's output reproduces it exactly. -/
theorem export_idempotent (col : Collection) (deck_id : ℤ) (days : Option ℤ)
    (field_indexes : Option (List ℤ)) (tags_filter : Option (List (List Char)))
    (min_interval : Option ℤ)
    (include_ids include_deck_name include_ts_ms compact_schema : Bool)
    (now_sec : ℚ) (prev1 prev2 : List Char) :
    export_file_contents col deck_id days field_indexes tags_filter min_interval
        include_ids include_deck_name include_ts_ms compact_schema now_sec prev1 =
      export_file_contents col deck_id days field_indexes tags_filter min_interval
        include_ids include_deck_name include_ts_ms compact_schema now_sec prev2 ∧
    export_file_contents col deck_id days field_indexes tags_filter min_interval
        include_ids include_deck_name include_ts_ms compact_schema now_sec
        (export_file_contents col deck_id days field_indexes tags_filter min_interval
          include_ids include_deck_name include_ts_ms compact_schema now_sec prev1) =
      export_file_contents col deck_id days field_indexes tags_filter min_interval
        include_ids include_deck_name include_ts_ms compact_schema now_sec prev1 :=
  ⟨rfl, rfl⟩

theorem mem_matchedRows_iff (col : Collection) (deck_id : ℤ) (days : Option ℤ)
    (tags_filter : Option (List (List Char))) (min_interval : Option ℤ)
    (now_sec : ℚ) (r : Row) :
    r ∈ matchedRows col deck_id days tags_filter min_interval now_sec ↔
      r ∈ col.db ∧
        rowPasses (deck_and_child_ids col deck_id) days tags_filter min_interval
          now_sec r = true := by
  rw [matchedRows, (List.perm_insertionSort tsLe _).mem_iff, List.mem_filter]

/-- C2: with no day window every record passing the other filters is
streamed regardless of its timestamp; with a window of `N` days a record
passing the other filters is streamed exactly when its millisecond
timestamp is at least `int((now - N*86400) * 1000)` — `>=`, so a record
exactly at the cutoff is included. -/
theorem time_filter_spec (col : Collection) (deck_id : ℤ)
    (tags_filter : Option (List (List Char))) (min_interval : Option ℤ)
    (now_sec : ℚ) (N : ℤ) (r : Row) :
    (r ∈ matchedRows col deck_id none tags_filter min_interval now_sec ↔
      r ∈ col.db ∧ r.did ∈ deck_and_child_ids col deck_id ∧
        tagsPass tags_filter r.tags = true ∧ miPass min_interval r.ivl = true) ∧
    (r ∈ matchedRows col deck_id (some N) tags_filter min_interval now_sec ↔
      (r ∈ col.db ∧ r.did ∈ deck_and_child_ids col deck_id ∧
        tagsPass tags_filter r.tags = true ∧ miPass min_interval r.ivl = true) ∧
        cutoff_ms now_sec N ≤ r.ts_ms) := by
  constructor
  · rw [mem_matchedRows_iff]
    simp only [rowPasses, timePass, Bool.and_eq_true, Bool.and_true, List.elem_iff,
      decide_eq_true_eq, and_assoc]
  · rw [mem_matchedRows_iff]
    simp only [rowPasses, timePass, Bool.and_eq_true, List.elem_iff,
      decide_eq_true_eq]
    tauto

/-- C7: the Deck Hierarchy Resolver's output always contains the root deck
id; for a childless deck it is exactly the set `{deck_id}`, and for a deck
with children it is a strictly larger set still containing the root — on
the recursive-children fallback path unconditionally, and on the bulk path
under the external API's contract (modelled from the spec: the bulk
"descendants" query returns the deck together with its descendants), with
the hierarchy acyclic so the root is not among its own descendants. -/
theorem deck_resolver_spec (col : Collection) (deck_id : ℤ)
    (hacyclic : deck_id ∉ descendants (col.deckTreeOf deck_id))
    (hbulk : ∀ f, col.bulkDeckChildIds = some f →
      (f deck_id).toFinset = (deck_id :: descendants (col.deckTreeOf deck_id)).toFinset) :
    deck_id ∈ deck_and_child_ids col deck_id ∧
    ((col.deckTreeOf deck_id).children = [] →
      (deck_and_child_ids col deck_id).toFinset = {deck_id}) ∧
    ((col.deckTreeOf deck_id).children ≠ [] →
      deck_id ∈ (deck_and_child_ids col deck_id).toFinset ∧
        1 < (deck_and_child_ids col deck_id).toFinset.card) := by
  have hdesc_nil : (col.deckTreeOf deck_id).children = [] →
      descendants (col.deckTreeOf deck_id) = [] := by
    intro h
    cases htree : col.deckTreeOf deck_id with
    | node i cs =>
      rw [htree] at h
      simp only [DeckTree.children] at h
      rw [descendants, h]
      rfl
  have hdesc_cons : (col.deckTreeOf deck_id).children ≠ [] →
      ∃ x rest, descendants (col.deckTreeOf deck_id) = x :: rest := by
    intro h
    cases htree : col.deckTreeOf deck_id with
    | node i cs =>
      rw [htree] at h
      simp only [DeckTree.children] at h
      match cs, h with
      | c :: cs', _ =>
        exact ⟨c.id, descendants c ++ descList cs', by rw [descendants, descList]⟩
  have hset : (deck_and_child_ids col deck_id).toFinset =
      (deck_id :: descendants (col.deckTreeOf deck_id)).toFinset := by
    rw [deck_and_child_ids]
    cases hb : col.bulkDeckChildIds with
    | none => rfl
    | some f => exact hbulk f hb
  refine ⟨?_, ?_, ?_⟩
  · rw [← List.mem_toFinset, hset]
    simp
  · intro h
    rw [hset, hdesc_nil h]
    simp
  · intro h
    obtain ⟨x, rest, hx⟩ := hdesc_cons h
    have hxmem : x ∈ (deck_and_child_ids col deck_id).toFinset := by
      rw [hset, hx]
      simp
    have hdmem : deck_id ∈ (deck_and_child_ids col deck_id).toFinset := by
      rw [hset]
      simp
    have hne : deck_id ≠ x := by
      intro hcon
      apply hacyclic
      rw [hx, hcon]
      exact List.mem_cons_self x rest
    exact ⟨hdmem, Finset.one_lt_card.mpr ⟨deck_id, hdmem, x, hxmem, hne⟩⟩

/-- C7 witness: a three-deck hierarchy (root 1 with children 2 and 3) on
the fallback path: the resolver yields the root and both children. -/
theorem deck_resolver_spec_witness :
    1 ∈ deck_and_child_ids
        ⟨[], [], none, fun _ => DeckTree.node 1 [DeckTree.node 2 [], DeckTree.node 3 []]⟩ 1 ∧
    1 < (deck_and_child_ids
        ⟨[], [], none, fun _ => DeckTree.node 1 [DeckTree.node 2 [], DeckTree.node 3 []]⟩
        1).toFinset.card := by
  have h := deck_resolver_spec
    ⟨[], [], none, fun _ => DeckTree.node 1 [DeckTree.node 2 [], DeckTree.node 3 []]⟩ 1
    (by simp [descendants, descList, DeckTree.id])
    (by intro f hf; simp at hf)
  exact ⟨h.1, (h.2.2 (by simp [DeckTree.children])).2⟩

/-- C10: when a deck id is missing from the preloaded id-to-name mapping
the pipeline still succeeds: the summary's root deck name is the literal
`"<unknown>"`, and a verbose record whose deck id is unmapped carries
`deck_name: "<unknown>"`. -/
theorem unknown_deck_fallback (col : Collection) (deck_id : ℤ) (days : Option ℤ)
    (field_indexes : Option (List ℤ)) (tags_filter : Option (List (List Char)))
    (min_interval : Option ℤ) (include_ids include_ts_ms : Bool) (now_sec : ℚ)
    (r : Row) (hroot : dictGet col.namesAndIds deck_id = none)
    (hdid : dictGet col.namesAndIds r.did = none) :
    (export_llm_stats col deck_id days field_indexes tags_filter min_interval
        include_ids true include_ts_ms false now_sec).1.deck_name =
      String.toList "<unknown>" ∧
    (String.toList "deck_name", JVal.jstr (String.toList "<unknown>")) ∈
      projectRow col.namesAndIds field_indexes include_ids true include_ts_ms false r := by
  constructor
  · simp [export_llm_stats, hroot]
  · simp [projectRow, hdid]

/-- C10 witness: an empty name mapping at a concrete collection and row. -/
theorem unknown_deck_fallback_witness :
    (export_llm_stats ⟨[], [], none, fun _ => DeckTree.node 0 []⟩ 7 none none none none
        false true false false 0).1.deck_name = String.toList "<unknown>" ∧
    (String.toList "deck_name", JVal.jstr (String.toList "<unknown>")) ∈
      projectRow ([] : List (List Char × ℤ)) none false true false false
        ⟨1000, 1, 2, 9, 3, 10, 5, 2500, 800, 1, [], []⟩ := by
  exact unknown_deck_fallback ⟨[], [], none, fun _ => DeckTree.node 0 []⟩ 7 none none none
    none false false 0 ⟨1000, 1, 2, 9, 3, 10, 5, 2500, 800, 1, [], []⟩ rfl rfl

/-- C1 witness: the amended guarantee at a concrete input — the sanitized
form of `" x &lt;b&gt; <i>y</i>  z "` contains no complete tag. -/
theorem clean_field_value_spec_witness :
    ¬ hasTagP (clean_field_value (String.toList " x &lt;b&gt; <i>y</i>  z ")) :=
  (clean_field_value_spec (String.toList " x &lt;b&gt; <i>y</i>  z ")).2.2.2.2

/-!
The write loop's statistics accumulator (C3).
-/

theorem loopAccum_foldl_count :
    ∀ (rows : List Row) (n : ℕ) (fo lo : Option ℤ),
      (rows.foldl loopStep (n, fo, lo)).1 = n + rows.length := by
  intro rows
  induction rows with
  | nil => intro n fo lo; simp
  | cons r rest ih =>
    intro n fo lo
    rw [List.foldl_cons, loopStep]
    rw [ih]
    simp
    omega

theorem loopAccum_foldl_first_some :
    ∀ (rows : List Row) (n : ℕ) (v : ℤ) (lo : Option ℤ),
      (rows.foldl loopStep (n, some v, lo)).2.1 = some v := by
  intro rows
  induction rows with
  | nil => intro n v lo; simp
  | cons r rest ih =>
    intro n v lo
    rw [List.foldl_cons, loopStep]
    exact ih _ _ _

theorem loopAccum_foldl_first_none (rows : List Row) (n : ℕ) (lo : Option ℤ) :
    (rows.foldl loopStep (n, none, lo)).2.1 = rows.head?.map Row.ts_ms := by
  cases rows with
  | nil => simp
  | cons r rest =>
    rw [List.foldl_cons, loopStep]
    simpa using loopAccum_foldl_first_some rest (n + 1) r.ts_ms (some r.ts_ms)

theorem loopAccum_foldl_last :
    ∀ (rows : List Row) (n : ℕ) (fo lo : Option ℤ),
      (rows.foldl loopStep (n, fo, lo)).2.2 = (rows.getLast?.map Row.ts_ms).or lo := by
  intro rows
  induction rows with
  | nil => intro n fo lo; simp
  | cons r rest ih =>
    intro n fo lo
    rw [List.foldl_cons, loopStep]
    rw [ih]
    cases rest with
    | nil => simp
    | cons b t =>
      rw [List.getLast?_cons_cons]
      cases hbt : (b :: t).getLast? with
      | none => exact absurd (List.getLast?_eq_none_iff.mp hbt) (by simp)
      | some x => simp

/-- Sorted (by timestamp) lists are bounded below by their head. -/
theorem sorted_head_le {l : List Row} (hs : l.Sorted tsLe) {x : Row} (hx : x ∈ l)
    (h : l ≠ []) : (l.head h).ts_ms ≤ x.ts_ms := by
  cases l with
  | nil => exact absurd rfl h
  | cons a t =>
    rcases List.mem_cons.mp hx with rfl | hx'
    · exact le_refl _
    · exact List.rel_of_sorted_cons hs x hx'

/-- Sorted (by timestamp) lists are bounded above by their last element. -/
theorem sorted_le_getLast :
    ∀ (l : List Row), l.Sorted tsLe → ∀ x ∈ l, ∀ (h : l ≠ []),
      x.ts_ms ≤ (l.getLast h).ts_ms := by
  intro l
  induction l with
  | nil =>
    intro _hs x hx _h
    simp at hx
  | cons a t ih =>
    intro hs x hx h
    cases t with
    | nil =>
      rcases List.mem_cons.mp hx with rfl | hx'
      · exact le_refl _
      · simp at hx'
    | cons b t' =>
      rw [List.getLast_cons (by simp)]
      rcases List.mem_cons.mp hx with rfl | hx'
      · exact List.rel_of_sorted_cons hs _ (List.getLast_mem (by simp))
      · exact ih hs.of_cons x hx' (by simp)

/-- C3: the `ExportResult` statistics — the count equals the number of
streamed (written) records; with zero records both timestamps are absent;
with a positive count `first_ts_ms` and `last_ts_ms` are present,
`first_ts_ms ≤ last_ts_ms`, and they are respectively the minimum and the
maximum timestamp among the written records. -/
theorem summary_stats_spec (col : Collection) (deck_id : ℤ) (days : Option ℤ)
    (field_indexes : Option (List ℤ)) (tags_filter : Option (List (List Char)))
    (min_interval : Option ℤ)
    (include_ids include_deck_name include_ts_ms compact_schema : Bool)
    (now_sec : ℚ) :
    (export_llm_stats col deck_id days field_indexes tags_filter min_interval
        include_ids include_deck_name include_ts_ms compact_schema now_sec).1.count =
      (matchedRows col deck_id days tags_filter min_interval now_sec).length ∧
    ((export_llm_stats col deck_id days field_indexes tags_filter min_interval
        include_ids include_deck_name include_ts_ms compact_schema now_sec).1.count = 0 →
      (export_llm_stats col deck_id days field_indexes tags_filter min_interval
          include_ids include_deck_name include_ts_ms compact_schema
          now_sec).1.first_ts_ms = none ∧
      (export_llm_stats col deck_id days field_indexes tags_filter min_interval
          include_ids include_deck_name include_ts_ms compact_schema
          now_sec).1.last_ts_ms = none) ∧
    (0 < (export_llm_stats col deck_id days field_indexes tags_filter min_interval
        include_ids include_deck_name include_ts_ms compact_schema now_sec).1.count →
      ∃ f l, (export_llm_stats col deck_id days field_indexes tags_filter min_interval
          include_ids include_deck_name include_ts_ms compact_schema
          now_sec).1.first_ts_ms = some f ∧
        (export_llm_stats col deck_id days field_indexes tags_filter min_interval
            include_ids include_deck_name include_ts_ms compact_schema
            now_sec).1.last_ts_ms = some l ∧
        f ≤ l ∧
        f ∈ (matchedRows col deck_id days tags_filter min_interval now_sec).map Row.ts_ms ∧
        l ∈ (matchedRows col deck_id days tags_filter min_interval now_sec).map Row.ts_ms ∧
        ∀ t ∈ (matchedRows col deck_id days tags_filter min_interval now_sec).map Row.ts_ms,
          f ≤ t ∧ t ≤ l) := by
  have hsort : (matchedRows col deck_id days tags_filter min_interval now_sec).Sorted tsLe :=
    List.sorted_insertionSort tsLe _
  have hcount : (export_llm_stats col deck_id days field_indexes tags_filter min_interval
      include_ids include_deck_name include_ts_ms compact_schema now_sec).1.count =
      (matchedRows col deck_id days tags_filter min_interval now_sec).length := by
    rw [export_llm_stats]
    simpa [loopAccum] using
      loopAccum_foldl_count (matchedRows col deck_id days tags_filter min_interval now_sec)
        0 none none
  have hfirst : (export_llm_stats col deck_id days field_indexes tags_filter min_interval
      include_ids include_deck_name include_ts_ms compact_schema now_sec).1.first_ts_ms =
      (matchedRows col deck_id days tags_filter min_interval now_sec).head?.map Row.ts_ms := by
    rw [export_llm_stats]
    simpa [loopAccum] using
      loopAccum_foldl_first_none
        (matchedRows col deck_id days tags_filter min_interval now_sec) 0 none
  have hlast : (export_llm_stats col deck_id days field_indexes tags_filter min_interval
      include_ids include_deck_name include_ts_ms compact_schema now_sec).1.last_ts_ms =
      ((matchedRows col deck_id days tags_filter min_interval
        now_sec).getLast?.map Row.ts_ms).or none := by
    rw [export_llm_stats]
    simpa [loopAccum] using
      loopAccum_foldl_last (matchedRows col deck_id days tags_filter min_interval now_sec)
        0 none none
  refine ⟨hcount, ?_, ?_⟩
  · intro h0
    have hnil : matchedRows col deck_id days tags_filter min_interval now_sec = [] :=
      List.length_eq_zero.mp (hcount ▸ h0)
    rw [hfirst, hlast, hnil]
    simp
  · intro hpos
    have hne : matchedRows col deck_id days tags_filter min_interval now_sec ≠ [] := by
      intro hnil
      rw [hcount, hnil] at hpos
      simp at hpos
    set rows := matchedRows col deck_id days tags_filter min_interval now_sec with hrows
    refine ⟨(rows.head hne).ts_ms, (rows.getLast hne).ts_ms, ?_, ?_, ?_, ?_, ?_, ?_⟩
    · rw [hfirst, List.head?_eq_head hne]
      rfl
    · rw [hlast, List.getLast?_eq_getLast rows hne]
      rfl
    · exact sorted_head_le hsort (List.getLast_mem hne) hne
    · exact List.mem_map_of_mem Row.ts_ms (List.head_mem hne)
    · exact List.mem_map_of_mem Row.ts_ms (List.getLast_mem hne)
    · intro t ht
      obtain ⟨x, hx, rfl⟩ := List.mem_map.mp ht
      exact ⟨sorted_head_le hsort hx hne, sorted_le_getLast rows hsort x hx hne⟩

/-- C3 witness: two rows with timestamps 1000 and 2000 in one deck, no
filters: count 2, first 1000, last 2000. -/
theorem summary_stats_spec_witness :
    0 < (export_llm_stats
        ⟨[⟨1000, 1, 1, 5, 3, 10, 2, 2500, 800, 1, [], []⟩,
          ⟨2000, 2, 2, 5, 3, 10, 2, 2500, 800, 1, [], []⟩],
         [(String.toList "D", 5)], none, fun _ => DeckTree.node 5 []⟩
        5 none none none none false false false false 0).1.count ∧
    ∃ f l, (export_llm_stats
        ⟨[⟨1000, 1, 1, 5, 3, 10, 2, 2500, 800, 1, [], []⟩,
          ⟨2000, 2, 2, 5, 3, 10, 2, 2500, 800, 1, [], []⟩],
         [(String.toList "D", 5)], none, fun _ => DeckTree.node 5 []⟩
        5 none none none none false false false false 0).1.first_ts_ms = some f ∧
      (export_llm_stats
        ⟨[⟨1000, 1, 1, 5, 3, 10, 2, 2500, 800, 1, [], []⟩,
          ⟨2000, 2, 2, 5, 3, 10, 2, 2500, 800, 1, [], []⟩],
         [(String.toList "D", 5)], none, fun _ => DeckTree.node 5 []⟩
        5 none none none none false false false false 0).1.last_ts_ms = some l ∧ f ≤ l := by
  have hpos : 0 < (export_llm_stats
      ⟨[⟨1000, 1, 1, 5, 3, 10, 2, 2500, 800, 1, [], []⟩,
        ⟨2000, 2, 2, 5, 3, 10, 2, 2500, 800, 1, [], []⟩],
       [(String.toList "D", 5)], none, fun _ => DeckTree.node 5 []⟩
      5 none none none none false false false false 0).1.count := by decide
  obtain ⟨f, l, hf, hl, hfl, -, -, -⟩ :=
    (summary_stats_spec
      ⟨[⟨1000, 1, 1, 5, 3, 10, 2, 2500, 800, 1, [], []⟩,
        ⟨2000, 2, 2, 5, 3, 10, 2, 2500, 800, 1, [], []⟩],
       [(String.toList "D", 5)], none, fun _ => DeckTree.node 5 []⟩
      5 none none none none false false false false 0).2.2 hpos
  exact ⟨hpos, f, l, hf, hl, hfl⟩

/-!
Configuration parsing (C9): soft validation drops invalid tokens.
-/

theorem pyStrip_eq_self {l : List Char} (h : ∀ c ∈ l, isPySpace c = false) :
    pyStrip l = l := by
  have hdw : ∀ (m : List Char), (∀ c ∈ m, isPySpace c = false) →
      m.dropWhile isPySpace = m := by
    intro m hm
    cases m with
    | nil => rfl
    | cons a t =>
      rw [List.dropWhile_cons]
      simp [hm a (List.mem_cons_self a t)]
  rw [pyStrip, hdw l h, hdw l.reverse (fun c hc => h c (List.mem_reverse.mp hc)),
    List.reverse_reverse]

theorem mem_renderComma {parts : List (List Char)} {c : Char}
    (h : c ∈ renderComma parts) : c = ',' ∨ ∃ p ∈ parts, c ∈ p := by
  induction parts with
  | nil => simp [renderComma] at h
  | cons p rest ih =>
    cases rest with
    | nil =>
      exact Or.inr ⟨p, List.mem_cons_self p [], by simpa [renderComma] using h⟩
    | cons q rest' =>
      rw [renderComma] at h
      rcases List.mem_append.mp h with h1 | h1
      · exact Or.inr ⟨p, List.mem_cons_self _ _, h1⟩
      · rcases List.mem_cons.mp h1 with h2 | h2
        · exact Or.inl h2
        · rcases ih h2 with h3 | ⟨p', hp', hc'⟩
          · exact Or.inl h3
          · exact Or.inr ⟨p', List.mem_cons_of_mem p hp', hc'⟩

theorem renderComma_eq_nil {parts : List (List Char)} (h : renderComma parts = []) :
    parts = [] ∨ parts = [[]] := by
  cases parts with
  | nil => exact Or.inl rfl
  | cons p rest =>
    cases rest with
    | nil =>
      rw [renderComma] at h
      exact Or.inr (by rw [h])
    | cons q rest' =>
      rw [renderComma] at h
      rcases List.append_eq_nil.mp h with ⟨-, h2⟩
      simp at h2

theorem splitSep_ne_nil (sep : Char) (l : List Char) : splitSep sep l ≠ [] := by
  cases l with
  | nil => simp [splitSep]
  | cons c cs =>
    rw [splitSep]
    cases h : splitSep sep cs with
    | nil => simp
    | cons a t =>
      by_cases hc : c = sep <;> simp [hc]

theorem splitSep_no_sep {sep : Char} {p : List Char} (h : sep ∉ p) :
    splitSep sep p = [p] := by
  induction p with
  | nil => rfl
  | cons c cs ih =>
    have hc : c ≠ sep := fun hcon => h (hcon ▸ List.mem_cons_self c cs)
    have hcs : sep ∉ cs := fun hcon => h (List.mem_cons_of_mem c hcon)
    rw [splitSep, ih hcs]
    simp [hc]

theorem splitSep_append {sep : Char} {p rest : List Char} (h : sep ∉ p) :
    splitSep sep (p ++ sep :: rest) = p :: splitSep sep rest := by
  induction p with
  | nil =>
    rw [List.nil_append, splitSep]
    cases hs : splitSep sep rest with
    | nil => exact absurd hs (splitSep_ne_nil sep rest)
    | cons a t => simp
  | cons c cs ih =>
    have hc : c ≠ sep := fun hcon => h (hcon ▸ List.mem_cons_self c cs)
    have hcs : sep ∉ cs := fun hcon => h (List.mem_cons_of_mem c hcon)
    rw [List.cons_append, splitSep, ih hcs]
    simp [hc]

theorem splitSep_renderComma {parts : List (List Char)} (hne : parts ≠ [])
    (h : ∀ p ∈ parts, ',' ∉ p) :
    splitSep ',' (renderComma parts) = parts := by
  induction parts with
  | nil => exact absurd rfl hne
  | cons p rest ih =>
    cases rest with
    | nil =>
      rw [renderComma]
      exact splitSep_no_sep (h p (List.mem_cons_self p []))
    | cons q rest' =>
      rw [renderComma, splitSep_append (h p (List.mem_cons_self _ _))]
      rw [ih (by simp) (fun p' hp' => h p' (List.mem_cons_of_mem p hp'))]

theorem replaceChar_eq_self {a b : Char} {l : List Char} (h : a ∉ l) :
    replaceChar a b l = l := by
  induction l with
  | nil => rfl
  | cons c cs ih =>
    have hc : c ≠ a := fun hcon => h (hcon ▸ List.mem_cons_self c cs)
    have hcs : a ∉ cs := fun hcon => h (List.mem_cons_of_mem c hcon)
    simp only [replaceChar, List.map_cons, if_neg hc]
    rw [show List.map (fun c => if c = a then b else c) cs = replaceChar a b cs from rfl,
      ih hcs]

theorem splitWsGo_append {p : List Char} (hws : ∀ c ∈ p, isPySpace c = false) :
    ∀ (cur l : List Char), splitWsGo cur (p ++ l) = splitWsGo (p.reverse ++ cur) l := by
  induction p with
  | nil => intro cur l; simp
  | cons c cs ih =>
    intro cur l
    have hc : isPySpace c = false := hws c (List.mem_cons_self c cs)
    have hcs : ∀ x ∈ cs, isPySpace x = false :=
      fun x hx => hws x (List.mem_cons_of_mem c hx)
    rw [List.cons_append, splitWsGo, hc]
    simp only [Bool.false_eq_true, if_false]
    rw [ih hcs (c :: cur) l]
    simp

theorem pySplitWs_plain {p : List Char} (hws : ∀ c ∈ p, isPySpace c = false) :
    pySplitWs p = if p = [] then [] else [p] := by
  have h := splitWsGo_append hws [] []
  rw [List.append_nil] at h
  rw [pySplitWs, h, splitWsGo]
  by_cases hp : p = []
  · simp [hp]
  · have : p.reverse ++ [] ≠ [] := by simpa using hp
    simp [this, hp]

theorem pySplitWs_render {parts : List (List Char)}
    (h : ∀ p ∈ parts, ',' ∉ p ∧ ∀ c ∈ p, isPySpace c = false) :
    pySplitWs (replaceChar ',' ' ' (renderComma parts)) =
      parts.filter (fun p => p ≠ []) := by
  induction parts with
  | nil => simp [renderComma, replaceChar, pySplitWs, splitWsGo]
  | cons p rest ih =>
    have hp := h p (List.mem_cons_self p rest)
    have hrest : ∀ p' ∈ rest, ',' ∉ p' ∧ ∀ c ∈ p', isPySpace c = false :=
      fun p' hp' => h p' (List.mem_cons_of_mem p hp')
    cases rest with
    | nil =>
      rw [renderComma, replaceChar_eq_self hp.1, pySplitWs_plain hp.2]
      by_cases hpe : p = [] <;> simp [hpe]
    | cons q rest' =>
      have hrepl : replaceChar ',' ' ' (renderComma (p :: q :: rest')) =
          p ++ ' ' :: replaceChar ',' ' ' (renderComma (q :: rest')) := by
        rw [renderComma]
        simp only [replaceChar, List.map_append, List.map_cons, if_pos rfl, if_true]
        rw [show List.map (fun c => if c = ',' then ' ' else c) p = replaceChar ',' ' ' p
          from rfl, replaceChar_eq_self hp.1]
      rw [pySplitWs, hrepl, splitWsGo_append hp.2, List.append_nil, splitWsGo]
      have hih : splitWsGo [] (replaceChar ',' ' ' (renderComma (q :: rest'))) =
          (q :: rest').filter (fun p => p ≠ []) := ih hrest
      by_cases hpe : p = []
      · subst hpe
        simp only [List.reverse_nil, if_pos rfl]
        rw [show isPySpace ' ' = true from by decide]
        simp only [if_pos rfl]
        rw [hih]
        simp
      · have hrev : p.reverse ≠ [] := by simpa using hpe
        rw [show isPySpace ' ' = true from by decide]
        simp only [if_pos rfl, if_neg hrev, List.reverse_reverse]
        rw [hih]
        simp [hpe]

theorem filterMap_eq_map_of {α β : Type} {f : α → Option β} {g : α → β} :
    ∀ {l : List α}, (∀ a ∈ l, f a = some (g a)) → l.filterMap f = l.map g := by
  intro l
  induction l with
  | nil => intro _h; rfl
  | cons a t ih =>
    intro h
    rw [List.filterMap_cons, h a (List.mem_cons_self a t), List.map_cons,
      ih (fun x hx => h x (List.mem_cons_of_mem a hx))]

/-- C9: configuration parsing drops invalid tokens silently.  Rendering any
comma-free, whitespace-free token sequence as the dialog's comma-separated
text: the field-index parser keeps exactly the tokens that parse as a
non-negative integer (invalid and empty tokens vanish, `None` when nothing
survives), and the tag parser keeps exactly the non-empty tokens,
lower-cased (`None` when nothing survives).  No input raises an error —
both parsers are total functions. -/
theorem soft_validation_spec (parts : List (List Char))
    (hp : ∀ p ∈ parts, ',' ∉ p ∧ ∀ c ∈ p, isPySpace c = false) :
    selected_field_indexes (renderComma parts) =
      (if parts.filterMap tokenIndex = [] then none
       else some (parts.filterMap tokenIndex)) ∧
    selected_tags (renderComma parts) =
      (if (parts.filter fun p => p ≠ []).map asciiLowerList = [] then none
       else some ((parts.filter fun p => p ≠ []).map asciiLowerList)) := by
  have hws : ∀ c ∈ renderComma parts, isPySpace c = false := by
    intro c hc
    rcases mem_renderComma hc with rfl | ⟨p, hp', hcp⟩
    · decide
    · exact (hp p hp').2 c hcp
  have hstrip : pyStrip (renderComma parts) = renderComma parts := pyStrip_eq_self hws
  by_cases hnil : renderComma parts = []
  · rcases renderComma_eq_nil hnil with rfl | rfl
    · exact ⟨by decide, by decide⟩
    · exact ⟨by decide, by decide⟩
  · have hparts : parts ≠ [] := by
      rintro rfl
      exact hnil rfl
    constructor
    · simp only [selected_field_indexes]
      rw [hstrip, if_neg hnil,
        splitSep_renderComma hparts (fun p hp' => (hp p hp').1)]
    · simp only [selected_tags]
      rw [hstrip, if_neg hnil, pySplitWs_render hp]
      have hmap : (parts.filter fun p => p ≠ []).filterMap tokenTag =
          (parts.filter fun p => p ≠ []).map asciiLowerList := by
        apply filterMap_eq_map_of
        intro p hpf
        have hmem := List.mem_filter.mp hpf
        have hpe : p ≠ [] := by simpa using hmem.2
        have hpc := hp p hmem.1
        have hlow : asciiLowerList p ≠ [] := by
          intro hcon
          exact hpe (List.map_eq_nil_iff.mp hcon)
        simp only [tokenTag, pyStrip_eq_self hpc.2]
        rw [if_neg hlow]
      rw [hmap]

/-- C9 witness: the token `x` and the negative token `-3` are dropped from
the index list, and tags are lower-cased, with no error in either case. -/
theorem soft_validation_spec_witness :
    selected_field_indexes (renderComma [String.toList "0", String.toList "x",
        String.toList "2", String.toList "-3"]) = some [0, 2] ∧
    selected_tags (renderComma [String.toList "A", String.toList "B2"]) =
      some [String.toList "a", String.toList "b2"] := by
  constructor
  · have h := (soft_validation_spec [String.toList "0", String.toList "x",
      String.toList "2", String.toList "-3"] (by decide)).1
    exact h.trans (by decide)
  · have h := (soft_validation_spec [String.toList "A", String.toList "B2"]
      (by decide)).2
    exact h.trans (by decide)

/-!
The tag filter (C5): characterizing SQLite `LIKE '% tag %'` over the
sentinel-delimited tag string.
-/

theorem char_toNat_ofNat {n : ℕ} (h : n < 55296) : (Char.ofNat n).toNat = n := by
  rw [Char.ofNat, dif_pos (Or.inl h)]
  simp [Char.ofNatAux, Char.toNat, UInt32.toNat]

theorem asciiLower_ne_space {c : Char} (h : c ≠ ' ') : asciiLower c ≠ ' ' := by
  rw [asciiLower]
  by_cases hAZ : ('A' ≤ c && c ≤ 'Z') = true
  · rw [if_pos hAZ]
    intro hcon
    obtain ⟨hA, hZ⟩ := Bool.and_eq_true_iff.mp hAZ
    have hA' : 65 ≤ c.toNat := by
      have := of_decide_eq_true hA
      rw [Char.le_def] at this
      exact this
    have hZ' : c.toNat ≤ 90 := by
      have := of_decide_eq_true hZ
      rw [Char.le_def] at this
      exact this
    have hval : (Char.ofNat (c.toNat + 32)).toNat = c.toNat + 32 :=
      char_toNat_ofNat (by omega)
    have hcon' := congrArg Char.toNat hcon
    rw [hval] at hcon'
    have : (' ' : Char).toNat = 32 := rfl
    omega
  · rw [if_neg hAZ]
    exact h

theorem asciiLowerList_ne_nil {l : List Char} (h : l ≠ []) : asciiLowerList l ≠ [] := by
  intro hcon
  exact h (List.map_eq_nil_iff.mp hcon)

theorem space_not_mem_asciiLowerList {l : List Char} (h : ' ' ∉ l) :
    ' ' ∉ asciiLowerList l := by
  intro hc
  obtain ⟨c, hcl, hceq⟩ := List.mem_map.mp hc
  have hcne : c ≠ ' ' := fun he => h (he ▸ hcl)
  exact asciiLower_ne_space hcne hceq

theorem likeMatch_pct_iff {ps : List Char} {s : List Char} :
    likeMatch ('%' :: ps) s = true ↔ ∃ u, u <:+ s ∧ likeMatch ps u = true := by
  rw [show likeMatch ('%' :: ps) s = (s.tails.any fun t => likeMatch ps t) by
      rw [likeMatch],
    List.any_eq_true]
  constructor
  · rintro ⟨u, hu, h⟩
    exact ⟨u, (List.mem_tails u s).mp hu, h⟩
  · rintro ⟨u, hu, h⟩
    exact ⟨u, (List.mem_tails u s).mpr hu, h⟩

theorem likeMatch_plainPrefix :
    ∀ (p : List Char), (∀ c ∈ p, c ≠ '%' ∧ c ≠ '_') → ∀ (s : List Char),
      (likeMatch (p ++ ['%']) s = true ↔ asciiLowerList p <+: asciiLowerList s) := by
  intro p
  induction p with
  | nil =>
    intro _h s
    constructor
    · intro _h2
      simp [asciiLowerList]
    · intro _h2
      rw [List.nil_append, likeMatch_pct_iff]
      exact ⟨[], List.nil_suffix, rfl⟩
  | cons c p' ih =>
    intro hp s
    have hc := hp c (List.mem_cons_self c p')
    have hp' : ∀ x ∈ p', x ≠ '%' ∧ x ≠ '_' :=
      fun x hx => hp x (List.mem_cons_of_mem c hx)
    cases s with
    | nil =>
      rw [List.cons_append]
      constructor
      · intro h2
        rw [show likeMatch (c :: (p' ++ ['%'])) [] = false by
          simp [likeMatch, hc.1]] at h2
        exact absurd h2 (by simp)
      · intro h2
        rw [show asciiLowerList (c :: p') = asciiLower c :: asciiLowerList p' from rfl] at h2
        rw [show asciiLowerList [] = [] from rfl] at h2
        exact absurd h2 (by simp)
    | cons a s' =>
      rw [List.cons_append]
      rw [show likeMatch (c :: (p' ++ ['%'])) (a :: s') =
          ((c = '_' || asciiLower c = asciiLower a) && likeMatch (p' ++ ['%']) s') by
        simp [likeMatch, hc.1]]
      rw [show asciiLowerList (c :: p') = asciiLower c :: asciiLowerList p' from rfl]
      rw [show asciiLowerList (a :: s') = asciiLower a :: asciiLowerList s' from rfl]
      rw [List.cons_prefix_cons, Bool.and_eq_true, Bool.or_eq_true]
      constructor
      · rintro ⟨h1 | h1, h2⟩
        · exact absurd (of_decide_eq_true h1) hc.2
        · exact ⟨of_decide_eq_true h1, (ih hp' s').mp h2⟩
      · rintro ⟨h1, h2⟩
        exact ⟨Or.inr (decide_eq_true h1), (ih hp' s').mpr h2⟩

theorem prefix_suffix_map_iff (x s : List Char) :
    (∃ u, u <:+ s ∧ x <+: asciiLowerList u) ↔ x <:+: asciiLowerList s := by
  constructor
  · rintro ⟨u, ⟨v, rfl⟩, hx⟩
    exact List.infix_iff_prefix_suffix.mpr
      ⟨asciiLowerList u, hx, ⟨asciiLowerList v, by simp [asciiLowerList]⟩⟩
  · intro h
    obtain ⟨m, hxm, hms⟩ := List.infix_iff_prefix_suffix.mp h
    obtain ⟨v, hv⟩ := hms
    refine ⟨s.drop (v.length), List.drop_suffix _ _, ?_⟩
    have hm : asciiLowerList (s.drop v.length) = m := by
      rw [asciiLowerList, List.map_drop]
      rw [show List.map asciiLower s = asciiLowerList s from rfl, ← hv]
      exact List.drop_left v m
    rw [hm]
    exact hxm

theorem renderTags_head (ws : List (List Char)) : ∃ r, renderTags ws = ' ' :: r := by
  cases ws with
  | nil => exact ⟨[], rfl⟩
  | cons t ts => exact ⟨t ++ renderTags ts, rfl⟩

theorem infix_append_left {l r : List Char} (x : List Char) (h : l <:+: r) :
    l <:+: x ++ r := by
  obtain ⟨a, b, rfl⟩ := h
  exact ⟨x ++ a, b, by simp⟩

theorem asciiLowerList_renderTags (ws : List (List Char)) :
    asciiLowerList (renderTags ws) = renderTags (ws.map asciiLowerList) := by
  induction ws with
  | nil =>
    show asciiLowerList [' '] = [' ']
    simp [asciiLowerList, asciiLower]
  | cons t ts ih =>
    show asciiLowerList (' ' :: (t ++ renderTags ts)) = _
    rw [show asciiLowerList (' ' :: (t ++ renderTags ts)) =
        asciiLower ' ' :: (asciiLowerList t ++ asciiLowerList (renderTags ts)) by
      simp [asciiLowerList]]
    rw [ih, show asciiLower ' ' = ' ' from rfl]
    rfl

theorem pattern_infix_renderTags :
    ∀ (ws : List (List Char)) (t : List Char),
      (∀ w ∈ ws, w ≠ [] ∧ ' ' ∉ w) → t ≠ [] → ' ' ∉ t →
      ((' ' :: (t ++ [' '])) <:+: renderTags ws ↔ t ∈ ws) := by
  intro ws
  induction ws with
  | nil =>
    intro t _hws ht _hsp
    constructor
    · intro h
      have hlen := h.length_le
      match t, ht with
      | c :: t', _ => simp [renderTags] at hlen
    · intro h
      simp at h
  | cons w ws' ih =>
    intro t hws ht hsp
    have hw := hws w (List.mem_cons_self w ws')
    have hws' : ∀ x ∈ ws', x ≠ [] ∧ ' ' ∉ x :=
      fun x hx => hws x (List.mem_cons_of_mem w hx)
    constructor
    · rintro ⟨pre, post, heq⟩
      rw [show renderTags (w :: ws') = ' ' :: (w ++ renderTags ws') from rfl] at heq
      cases pre with
      | nil =>
        have heq2 : t ++ ' ' :: post = w ++ renderTags ws' := by
          have h4 := heq
          simp only [List.nil_append, List.cons_append, List.cons.injEq,
            List.append_assoc, List.singleton_append] at h4
          exact h4.2
        have hpt : t <+: w ++ renderTags ws' := ⟨' ' :: post, heq2⟩
        have hpw : w <+: w ++ renderTags ws' := ⟨renderTags ws', rfl⟩
        rcases List.prefix_or_prefix_of_prefix hpt hpw with hcase | hcase
        · obtain ⟨u, rfl⟩ := hcase
          have h3 : ' ' :: post = u ++ renderTags ws' := by
            have h4 := heq2
            rw [List.append_assoc] at h4
            exact List.append_cancel_left h4
          cases u with
          | nil => simp
          | cons c u' =>
            have hc : c = ' ' := by
              simp only [List.cons_append, List.cons.injEq] at h3
              exact h3.1.symm
            refine absurd ?_ hw.2
            refine List.mem_append_right t ?_
            rw [← hc]
            exact List.mem_cons_self c u'
        · obtain ⟨u, rfl⟩ := hcase
          have h3 : u ++ ' ' :: post = renderTags ws' := by
            have h4 := heq2
            rw [List.append_assoc] at h4
            exact List.append_cancel_left h4
          cases u with
          | nil => simp
          | cons c u' =>
            obtain ⟨r, hr⟩ := renderTags_head ws'
            rw [hr] at h3
            have hc : c = ' ' := by
              simp only [List.cons_append, List.cons.injEq] at h3
              exact h3.1
            refine absurd ?_ hsp
            refine List.mem_append_right w ?_
            rw [← hc]
            exact List.mem_cons_self c u'
      | cons c pre' =>
        have heq2 : pre' ++ (' ' :: (t ++ [' '])) ++ post = w ++ renderTags ws' := by
          have h4 := heq
          rw [List.cons_append] at h4
          exact (List.cons.injEq _ _ _ _ ▸ h4 : _ ∧ _).2
        have hppre : pre' <+: w ++ renderTags ws' :=
          ⟨(' ' :: (t ++ [' '])) ++ post, by rw [← List.append_assoc]; exact heq2⟩
        have hpw : w <+: w ++ renderTags ws' := ⟨renderTags ws', rfl⟩
        rcases List.prefix_or_prefix_of_prefix hppre hpw with hcase | hcase
        · obtain ⟨u, rfl⟩ := hcase
          have h3 : (' ' :: (t ++ [' '])) ++ post = u ++ renderTags ws' := by
            have h4 := heq2
            rw [List.append_assoc, List.append_assoc] at h4
            exact List.append_cancel_left h4
          cases u with
          | nil =>
            rw [List.nil_append] at h3
            have hinf : (' ' :: (t ++ [' '])) <:+: renderTags ws' :=
              ⟨[], post, by simpa using h3⟩
            exact List.mem_cons_of_mem _ ((ih t hws' ht hsp).mp hinf)
          | cons d u' =>
            have hd : d = ' ' := by
              simp only [List.cons_append, List.cons.injEq] at h3
              exact h3.1.symm
            refine absurd ?_ hw.2
            refine List.mem_append_right pre' ?_
            rw [← hd]
            exact List.mem_cons_self d u'
        · obtain ⟨u, rfl⟩ := hcase
          have h3 : u ++ (' ' :: (t ++ [' '])) ++ post = renderTags ws' := by
            have h4 := heq2
            rw [List.append_assoc, List.append_assoc] at h4
            have h5 := List.append_cancel_left h4
            rw [List.append_assoc]
            exact h5
          have hinf : (' ' :: (t ++ [' '])) <:+: renderTags ws' := ⟨u, post, h3⟩
          exact List.mem_cons_of_mem _ ((ih t hws' ht hsp).mp hinf)
    · intro hmem
      rcases List.mem_cons.mp hmem with rfl | hmem'
      · obtain ⟨r, hr⟩ := renderTags_head ws'
        refine List.IsPrefix.isInfix ⟨r, ?_⟩
        rw [show renderTags (t :: ws') = ' ' :: (t ++ renderTags ws') from rfl, hr]
        simp
      · have hinf := (ih t hws' ht hsp).mpr hmem'
        rw [show renderTags (w :: ws') = (' ' :: w) ++ renderTags ws' from rfl]
        exact infix_append_left (' ' :: w) hinf

/-- C5 (amended): for a non-empty requested tag list whose tags contain no
SQL LIKE wildcard (`%`, `_`) and no space, and a note tag string in Anki's
sentinel form over non-empty space-free tokens, the tag filter accepts
exactly when some requested tag equals a complete tag token of the note,
ASCII-case-insensitively — never a proper substring.  (A requested tag
containing `%` or `_` is interpreted as a LIKE pattern and can match tokens
it does not equal; see the counterexample.) -/
theorem tag_filter_spec (tags toks : List (List Char)) (htags : tags ≠ [])
    (ht : ∀ t ∈ tags, t ≠ [] ∧ ' ' ∉ t ∧ '%' ∉ t ∧ '_' ∉ t)
    (hw : ∀ w ∈ toks, w ≠ [] ∧ ' ' ∉ w) :
    (tagsPass (some tags) (renderTags toks) = true ↔
      ∃ tg ∈ tags, ∃ w ∈ toks, asciiLowerList w = asciiLowerList tg) := by
  rw [show tagsPass (some tags) (renderTags toks) =
      (if tags = [] then true
       else tags.any fun t => likeMatch (likePattern t) (renderTags toks)) by
    rw [tagsPass]]
  rw [if_neg htags, List.any_eq_true]
  have key : ∀ tg ∈ tags,
      (likeMatch (likePattern tg) (renderTags toks) = true ↔
        ∃ w ∈ toks, asciiLowerList w = asciiLowerList tg) := by
    intro tg htg
    obtain ⟨htne, htsp, htpct, htund⟩ := ht tg htg
    have hpat : likePattern tg = '%' :: ((' ' :: (tg ++ [' '])) ++ ['%']) := by
      rw [likePattern]
      simp
    have hplain : ∀ c ∈ (' ' :: (tg ++ [' '])), c ≠ '%' ∧ c ≠ '_' := by
      intro c hc
      rcases List.mem_cons.mp hc with rfl | hc'
      · exact ⟨by decide, by decide⟩
      · rcases List.mem_append.mp hc' with h1 | h1
        · exact ⟨fun he => htpct (he ▸ h1), fun he => htund (he ▸ h1)⟩
        · simp only [List.mem_singleton] at h1
          subst h1
          exact ⟨by decide, by decide⟩
    rw [hpat, likeMatch_pct_iff]
    have hstep : ∀ u : List Char,
        (likeMatch ((' ' :: (tg ++ [' '])) ++ ['%']) u = true ↔
          asciiLowerList (' ' :: (tg ++ [' '])) <+: asciiLowerList u) :=
      likeMatch_plainPrefix (' ' :: (tg ++ [' '])) hplain
    have hex : (∃ u, u <:+ renderTags toks ∧
          likeMatch ((' ' :: (tg ++ [' '])) ++ ['%']) u = true) ↔
        (∃ u, u <:+ renderTags toks ∧
          asciiLowerList (' ' :: (tg ++ [' '])) <+: asciiLowerList u) := by
      apply exists_congr
      intro u
      rw [hstep u]
    rw [hex, prefix_suffix_map_iff]
    have hlowP : asciiLowerList (' ' :: (tg ++ [' '])) =
        ' ' :: (asciiLowerList tg ++ [' ']) := by
      simp [asciiLowerList, show asciiLower ' ' = ' ' from by decide]
    rw [hlowP, asciiLowerList_renderTags]
    rw [pattern_infix_renderTags (toks.map asciiLowerList) (asciiLowerList tg)
      (by
        intro w' hw'
        obtain ⟨w, hwm, rfl⟩ := List.mem_map.mp hw'
        exact ⟨asciiLowerList_ne_nil (hw w hwm).1,
          space_not_mem_asciiLowerList (hw w hwm).2⟩)
      (asciiLowerList_ne_nil htne) (space_not_mem_asciiLowerList htsp)]
    rw [List.mem_map]
  constructor
  · rintro ⟨tg, htg, hlm⟩
    exact ⟨tg, htg, (key tg htg).mp hlm⟩
  · rintro ⟨tg, htg, hex⟩
    exact ⟨tg, htg, (key tg htg).mpr hex⟩

/-- C5 counterexample: the requested tag `a_c` (a legitimate tag name with
an underscore) is accepted against a note whose only complete tag token is
`abc`, because `_` is a single-character wildcard in SQL LIKE; yet `a_c`
does not equal `abc` even case-insensitively, so the claimed
"accepts iff a requested tag matches a complete tag token" equivalence is
false. -/
theorem tag_filter_claim_counterexample :
    tagsPass (some [String.toList "a_c"]) (renderTags [String.toList "abc"]) = true ∧
    asciiLowerList (String.toList "abc") ≠ asciiLowerList (String.toList "a_c") := by
  refine ⟨?_, ?_⟩ <;> decide

/-- C5 witness: a wildcard-free tag matches case-insensitively as a whole
token. -/
theorem tag_filter_spec_witness :
    tagsPass (some [String.toList "KanJi"])
      (renderTags [String.toList "kanji", String.toList "verbs"]) = true :=
  (tag_filter_spec [String.toList "KanJi"] [String.toList "kanji", String.toList "verbs"]
      (by decide) (by decide) (by decide)).mpr
    ⟨String.toList "KanJi", by decide, String.toList "kanji", by decide, by decide⟩

end AnkiExport
